import Mathlib

/-!
Verification development for the `ripper2csv` corpus-to-CSV converter
(`src/main.py`).  The program parses a tab-delimited Hebrew corpus dump
into `Word` records, and either generates a starter category-config file
(first run) or writes a flat CSV table (later runs).

Strings are modelled as `List Char` (`Str`), so that every operation is a
plain structural recursion that the kernel can evaluate.  Each definition
below mirrors one Python function or expression of the source; comments
cite the source lines.
-/

set_option maxRecDepth 4000

/-- Strings as lists of characters, so all operations compute. -/
abbrev Str := List Char

/-- Conversion from Lean string literals. -/
def str (s : String) : Str := s.data

/-- Python `s.split(c)` for a single-character separator: splits on every
occurrence, keeping empty pieces; `"".split(c) = [""]`. -/
def splitOnChar (c : Char) : Str → List Str
  | [] => [[]]
  | d :: rest =>
    match splitOnChar c rest with
    | [] => [[d]]
    | s :: ss => if d = c then [] :: s :: ss else (d :: s) :: ss

/-- Python whitespace characters recognised by `str.strip()` (ASCII range). -/
def pyIsSpace (c : Char) : Bool :=
  c = ' ' || c = '\t' || c = '\n' || c = '\r' || c = Char.ofNat 11 || c = Char.ofNat 12

/-- Python `s.strip()`: drop leading and trailing whitespace. -/
def pyStrip (s : Str) : Str :=
  ((s.dropWhile pyIsSpace).reverse.dropWhile pyIsSpace).reverse

/-- Python `file.readlines()`: split file content into lines, each keeping its
trailing newline; a final piece without a newline is kept, an empty final
piece is dropped. -/
def pyReadlines : Str → List Str
  | [] => []
  | c :: rest =>
    if c = '\n' then ['\n'] :: pyReadlines rest
    else
      match pyReadlines rest with
      | [] => [[c]]
      | l :: ls => (c :: l) :: ls

/-- Python `sep.join(xs)`. -/
def joinSep (sep : Str) : List Str → Str
  | [] => []
  | [s] => s
  | s :: ss => s ++ sep ++ joinSep sep ss

/-- Lexicographic comparison of code-point lists (Python string `<=`). -/
def natLe : List Nat → List Nat → Bool
  | [], _ => true
  | _ :: _, [] => false
  | a :: as, b :: bs => if a < b then true else if b < a then false else natLe as bs

/-- Code points of the lowercased string: Python `x.lower()` as a sort key
(ASCII case folding, which covers every tag the program handles). -/
def lowKey (s : Str) : List Nat := s.map (fun c => (Char.toLower c).toNat)

/-- The case-insensitive order used by `sorted(parts, key=lambda x: x.lower())`
in `write_config` (src/main.py line 62). -/
def lowRel (a b : Str) : Prop := natLe (lowKey a) (lowKey b) = true

instance : DecidableRel lowRel := fun a b => by unfold lowRel; infer_instance

/-- Python `dict` insertion: update in place when the key exists (keeping its
position), otherwise append. -/
def dictInsert {α : Type} (k : Str) (v : α) : List (Str × α) → List (Str × α)
  | [] => [(k, v)]
  | (k2, v2) :: rest => if k = k2 then (k, v) :: rest else (k2, v2) :: dictInsert k v rest

/-- Python `dict` lookup (`d.get(k)` / `k in d`). -/
def dictGet {α : Type} (k : Str) : List (Str × α) → Option α
  | [] => none
  | (k2, v) :: rest => if k = k2 then some v else dictGet k rest

/-- Python `list.remove(x)`: drop the first occurrence, keep the rest.
`write_config` guards the call with `if feature in met_parts`, so the
no-occurrence case (where this is the identity) is equivalent. -/
def pyRemove (x : Str) : List Str → List Str
  | [] => []
  | y :: ys => if y = x then ys else y :: pyRemove x ys

/-- Deduplication of the tag list, standing in for Python's `set()` whose
iteration order is unspecified; keeps the last occurrence of each element.
Only the underlying set matters: `write_config` sorts the result. -/
def pyDedup : List Str → List Str
  | [] => []
  | x :: xs => if x ∈ xs then pyDedup xs else x :: pyDedup xs

/-! ## Data model (src/main.py lines 8-31) -/

/-- Value stored in the `parts` dict: `config.get(part, part)` yields either a
category's value set (when the tag equals a category name) or the tag string
itself (src/main.py line 135). -/
abbrev PartVal := List Str ⊕ Str

/-- The `Word` dataclass (src/main.py lines 9-18).  The source field `lemma`
is a Lean keyword, so it is carried here as `lemma_`. -/
structure Word where
  verse_id : Str
  form : Str
  transliterated_form : Str
  fts : Option (List Str)
  parts : Option (List (Str × PartVal))
  lemma_ : Option Str := none
  transliterated_lemma : Option Str := none
  translation : Option Str := none
deriving DecidableEq

/-- `ConfigType = Optional[Dict[str, Set[str]]]` (src/main.py line 21); the
value sets are carried as the term lists produced by `split(',')`. -/
abbrev Config := List (Str × List Str)

abbrev ConfigType := Option Config

/-- Python string prefix test: does the first argument begin the second? -/
def strLeads : Str → Str → Bool
  | [], _ => true
  | _ :: _, [] => false
  | a :: as, b :: bs => a = b && strLeads as bs

/-- Python substring containment, `needle in hay`. -/
def strContains (needle : Str) : Str → Bool
  | [] => strLeads needle []
  | c :: rest => strLeads needle (c :: rest) || strContains needle rest

/-- `skip_chars` (src/main.py line 8).  The entries are strings, tested by
substring containment.  The third entry is the three-character mojibake
sequence U+00E2, U+2014, U+00A6 that the UTF-8 source file holds literally
(a once-UTF-8-encoded U+25E6 re-decoded as another encoding). -/
def skip_chars : List Str :=
  [str "[", str "]", [Char.ofNat 0xE2, Char.ofNat 0x2014, Char.ofNat 0xA6]]

/-- `any(skip_char in line for skip_char in skip_chars)` (src/main.py line 98). -/
def hasSkipMark (l : Str) : Bool := skip_chars.any (fun sc => strContains sc l)

/-- `DEFAULT_PARTS` (src/main.py lines 23-31), lists verbatim including the
repeated `Noun` in the `verse` vocabulary. -/
def DEFAULT_PARTS : List (Str × List Str) := [
  (str "verse", [str "Particle", str "Verb", str "Noun", str "Suffix",
                 str "Pronoun", str "Adjective", str "Paragraph", str "Noun"]),
  (str "pos", [str "noun", str "verb", str "particle", str "adjective"]),
  (str "number", [str "singular", str "plural"]),
  (str "gender", [str "masculine", str "feminine"]),
  (str "tense", [str "perfect", str "imperfect"]),
  (str "person", [str "first", str "second", str "third"]),
  (str "binyan", [str "qal", str "piel", str "hifil", str "nifal", str "pual",
                  str "hitpael", str "hofal", str "passiveqal", str "polel",
                  str "hitpolel"])]

/-! ## ConfigStore (src/main.py lines 33-71) -/

/-- The per-line loop of `read_config` (src/main.py lines 41-48): split the
line on every `':'`; exactly two parts builds `ret[title] = set(terms)`,
anything else raises `ValueError`, which the surrounding `try` turns into
an overall `None` (lines 50-52). -/
def read_config_go : List Str → Config → Option Config
  | [], ret => some ret
  | line :: rest, ret =>
    let parts := splitOnChar ':' line
    if parts.length = 2 then
      read_config_go rest
        (dictInsert (pyStrip (parts.getD 0 [])) (splitOnChar ',' (parts.getD 1 [])) ret)
    else none

/-- `read_config` on the content of an existing `config.txt`
(src/main.py lines 38-52); `none` is the "no config" outcome. -/
def read_config_content (content : Str) : Option Config :=
  read_config_go (pyReadlines content) []

/-- The union of all truthy `word.fts` lists (src/main.py lines 55-60),
deduplicated in place of Python's `set`. -/
def observed_tags (words : List Word) : List Str :=
  pyDedup (words.foldl
    (fun acc w => match w.fts with
      | some l => if l = [] then acc else acc ++ l
      | none => acc) [])

/-- `met_parts = sorted(parts, key=lambda x: x.lower())` (src/main.py line 62). -/
def met_parts0 (words : List Word) : List Str :=
  List.insertionSort lowRel (observed_tags words)

/-- Every value of every built-in vocabulary, in iteration order of the
removal loop (src/main.py lines 64-68). -/
def default_features : List Str := (DEFAULT_PARTS.map Prod.snd).flatten

/-- The tag values left for the trailing `other:` line after the removal loop
(src/main.py lines 66-68). -/
def write_config_other (words : List Word) : List Str :=
  default_features.foldl (fun l f => pyRemove f l) (met_parts0 words)

/-- The fixed category lines written first (src/main.py lines 64-65). -/
def default_config_lines : Str :=
  (DEFAULT_PARTS.map (fun kv => kv.1 ++ str ": " ++ joinSep (str ", ") kv.2 ++ ['\n'])).flatten

/-- The full content `write_config` writes to `config.txt`
(src/main.py lines 54-71). -/
def write_config_content (words : List Word) : Str :=
  default_config_lines ++
    (if write_config_other words = [] then []
     else str "other: " ++ joinSep (str ", ") (write_config_other words))

/-! ## VerseParser (src/main.py lines 76-135) -/

/-- `handle_parts` (src/main.py lines 132-135): `None` without a config,
otherwise the dict `{part: config.get(part, part) for part in parts.split(' ')}`. -/
def handle_parts (parts : Str) (config : ConfigType) : Option (List (Str × PartVal)) :=
  match config with
  | none => none
  | some c => some ((splitOnChar ' ' parts).foldl
      (fun d part => dictInsert part
        (match dictGet part c with
         | some vs => Sum.inl vs
         | none => Sum.inr part) d) [])

/-- `parse_suffix` (src/main.py lines 123-130); indexing via `getD` is total,
and the only call site passes a list of exactly three fields. -/
def parse_suffix (verse : Str) (parts : List Str) (config : ConfigType) : Word :=
  { verse_id := verse
    form := parts.getD 0 []
    transliterated_form := parts.getD 1 []
    fts := some (splitOnChar ' ' (parts.getD 2 []))
    parts := handle_parts (parts.getD 2 []) config }

/-- `parse_word` (src/main.py lines 111-121); call sites pass five or six
fields, `parts[-1]` is the last field. -/
def parse_word (verse : Str) (parts : List Str) (config : ConfigType) : Word :=
  { verse_id := verse
    form := parts.getD 0 []
    transliterated_form := parts.getD 1 []
    lemma_ := some (parts.getD 2 [])
    transliterated_lemma := some (parts.getD 3 [])
    fts := if parts.length = 6 then some (splitOnChar ' ' (parts.getD 4 [])) else none
    parts := if parts.length = 6 then handle_parts (parts.getD 4 []) config else none
    translation := some (parts.getLastD []) }

/-- The body loop of `parse_verse` (src/main.py lines 96-109): read lines
until a blank line or end of file; skip annotation lines; dispatch on the
tab-field count, dropping any other count as a soft error.  The input list
holds the unread lines; `readline()` at end of file yields the empty string,
which strips to the blank line that ends the loop. -/
def parse_verse_body (verse : Str) (config : ConfigType) :
    List Str → List Word → List Word × List Str
  | [], acc => (acc, [])
  | l :: rest, acc =>
    let line := pyStrip l
    if hasSkipMark line then parse_verse_body verse config rest acc
    else if line = [] then (acc, rest)
    else
      let parts := splitOnChar '\t' line
      if parts.length = 3 then
        parse_verse_body verse config rest (acc ++ [parse_suffix verse parts config])
      else if parts.length = 5 ∨ parts.length = 6 then
        parse_verse_body verse config rest (acc ++ [parse_word verse parts config])
      else parse_verse_body verse config rest acc

/-- The assertion message for `assert '\t' not in verse` (src/main.py line 94). -/
def assertMsg : Str := str "AssertionError"

/-- `parse_verse` (src/main.py lines 92-109): read the identifier line,
assert it has no tab once stripped, then collect the verse body; returns the
words together with the still-unread lines. -/
def parse_verse (lines : List Str) (config : ConfigType) :
    Except Str (List Word × List Str) :=
  let verse := pyStrip (lines.headD [])
  if '\t' ∈ verse then Except.error assertMsg
  else Except.ok (parse_verse_body verse config lines.tail [])

/-- The `while True` loop of `parse_file` (src/main.py lines 85-89), with a
fuel bound on the number of iterations; each iteration consumes at least one
line, so `lines.length + 1` units of fuel always suffice
(`parse_file_go_stable` below). -/
def parse_file_go (config : ConfigType) : Nat → List Str → Except Str (List Word)
  | 0, _ => Except.ok []
  | fuel + 1, lines =>
    match parse_verse lines config with
    | Except.error e => Except.error e
    | Except.ok (ws, rest) =>
      if rest = [] then Except.ok ws
      else
        match parse_file_go config fuel rest with
        | Except.error e => Except.error e
        | Except.ok ws2 => Except.ok (ws ++ ws2)

/-- `parse_file` (src/main.py lines 82-90), over the list of decoded lines. -/
def parse_file (lines : List Str) (config : ConfigType) : Except Str (List Word) :=
  parse_file_go config (lines.length + 1) lines

/-- The accumulation loop of `__main__` (src/main.py lines 168-170) over the
contents of the discovered files; an uncaught parse assertion propagates. -/
def parse_all (files : List Str) (config : ConfigType) : Except Str (List Word) :=
  files.foldl
    (fun acc f =>
      match acc with
      | Except.error e => Except.error e
      | Except.ok ws =>
        match parse_file (pyReadlines f) config with
        | Except.error e => Except.error e
        | Except.ok ws2 => Except.ok (ws ++ ws2)) (Except.ok [])

/-! ## TableWriter (src/main.py lines 137-159) -/

/-- One CSV row as the Python dict `w`: column name to cell, where `none` is
Python `None` (serialised as an empty field). -/
abbrev Row := List (Str × Option Str)

/-- The `fts` cell: `"[" + ', '.join(word.fts) + "]" if word.fts else None`
(src/main.py line 147). -/
def fts_cell (w : Word) : Option Str :=
  match w.fts with
  | some l => if l = [] then none else some (str "[" ++ joinSep (str ", ") l ++ str "]")
  | none => none

/-- One category cell (src/main.py lines 150-152): the comma-joined
intersection of the category's term set with the keys of `word.parts`,
empty when the intersection is empty or `word.parts` is falsy.  Python
iterates the intersection as a set; we fix term-list order. -/
def category_cell (w : Word) (terms : List Str) : Str :=
  match w.parts with
  | none => []
  | some ps =>
    if ps = [] then []
    else
      let met := (pyDedup terms).filter (fun t => decide (t ∈ ps.map Prod.fst))
      if met = [] then [] else joinSep [','] met

/-- The dict literal `w = {...}` (src/main.py lines 141-149). -/
def base_row (w : Word) : Row :=
  [(str "verse_id", some w.verse_id),
   (str "form", some w.form),
   (str "transliterated_form", some w.transliterated_form),
   (str "lemma", w.lemma_),
   (str "transliterated_lemma", w.transliterated_lemma),
   (str "fts", fts_cell w),
   (str "translation", w.translation)]

/-- One full row: the base dict updated with one entry per config category,
in config iteration order (src/main.py lines 150-153). -/
def word_row (w : Word) (config : Config) : Row :=
  config.foldl (fun r kv => dictInsert kv.1 (some (category_cell w kv.2)) r) (base_row w)

/-- `write_csv` (src/main.py lines 137-159): the header is `w.keys()` where
`w` is the loop variable holding the last word's row; with zero words that
variable is unbound and the run dies with a `NameError`.  On success the
result is the header and the data rows, one per word. -/
def write_csv (words : List Word) (config : Config) :
    Except Str (List Str × List Row) :=
  let out := words.map (fun w => word_row w config)
  match out.getLast? with
  | none => Except.error (str "NameError: name w is not defined")
  | some wlast => Except.ok (wlast.map Prod.fst, out)

/-- The two-run round trip of `__main__` (src/main.py lines 162-174) on one
corpus, given as the list of input file contents.  First run: no config, so
parse and write `config.txt`.  Second run: read that config back; if reading
fails the second run regenerates the config and writes no table (`ok none`),
otherwise it parses again and writes `output.csv`. -/
def round_trip (files : List Str) : Except Str (Option (List Str × List Row)) :=
  match parse_all files none with
  | Except.error e => Except.error e
  | Except.ok ws1 =>
    match read_config_content (write_config_content ws1) with
    | none => Except.ok none
    | some config =>
      match parse_all files (some config) with
      | Except.error e => Except.error e
      | Except.ok ws2 =>
        match write_csv ws2 config with
        | Except.error e => Except.error e
        | Except.ok t => Except.ok (some t)

/-! ## Basic lemmas about the string and dict operations -/

theorem splitOnChar_ne_nil (c : Char) (s : Str) : splitOnChar c s ≠ [] := by
  induction s with
  | nil => simp [splitOnChar]
  | cons d rest ih =>
    cases h : splitOnChar c rest with
    | nil => exact absurd h ih
    | cons q qs =>
      have hcons : splitOnChar c (d :: rest) =
          if d = c then [] :: q :: qs else (d :: q) :: qs := by
        simp only [splitOnChar, h]
      rw [hcons]
      by_cases hdc : d = c <;> simp [hdc]

theorem splitOnChar_not_mem (c : Char) (s : Str) : ∀ p ∈ splitOnChar c s, c ∉ p := by
  induction s with
  | nil =>
    intro p hp
    simp [splitOnChar] at hp
    simp [hp]
  | cons d rest ih =>
    intro p hp
    cases h : splitOnChar c rest with
    | nil => exact absurd h (splitOnChar_ne_nil c rest)
    | cons q qs =>
      have hcons : splitOnChar c (d :: rest) =
          if d = c then [] :: q :: qs else (d :: q) :: qs := by
        simp only [splitOnChar, h]
      rw [hcons] at hp
      have ihq : ∀ p ∈ q :: qs, c ∉ p := h ▸ ih
      by_cases hdc : d = c
      · rw [if_pos hdc] at hp
        rcases List.mem_cons.mp hp with h1 | h1
        · simp [h1]
        · exact ihq p h1
      · rw [if_neg hdc] at hp
        rcases List.mem_cons.mp hp with h1 | h1
        · subst h1
          intro hc
          rcases List.mem_cons.mp hc with h2 | h2
          · exact hdc h2.symm
          · exact ihq q (List.mem_cons_self q qs) h2
        · exact ihq p (List.mem_cons_of_mem q h1)

theorem splitOnChar_eq_self (c : Char) (s : Str) (h : c ∉ s) : splitOnChar c s = [s] := by
  induction s with
  | nil => rfl
  | cons d rest ih =>
    have hdc : d ≠ c := fun he => h (he ▸ List.mem_cons_self d rest)
    have hrest : c ∉ rest := fun hm => h (List.mem_cons_of_mem d hm)
    simp only [splitOnChar, ih hrest]
    rw [if_neg hdc]

theorem splitOnChar_append (c : Char) (s t : Str) (h : c ∉ s) :
    splitOnChar c (s ++ c :: t) = s :: splitOnChar c t := by
  induction s with
  | nil =>
    cases ht : splitOnChar c t with
    | nil => exact absurd ht (splitOnChar_ne_nil c t)
    | cons q qs =>
      have hcons : splitOnChar c (c :: t) = if c = c then [] :: q :: qs else (c :: q) :: qs := by
        simp only [splitOnChar, ht]
      simp [hcons, ht]
  | cons d ds ih =>
    have hdc : d ≠ c := fun he => h (he ▸ List.mem_cons_self d ds)
    have hds : c ∉ ds := fun hm => h (List.mem_cons_of_mem d hm)
    have hih := ih hds
    have hcons : splitOnChar c (d :: (ds ++ c :: t)) =
        if d = c then [] :: ds :: splitOnChar c t else (d :: ds) :: splitOnChar c t := by
      simp only [splitOnChar, hih]
    simp only [List.cons_append, hcons, if_neg hdc]

theorem splitOnChar_joinSep (c : Char) :
    ∀ (ls : List Str), ls ≠ [] → (∀ p ∈ ls, c ∉ p) →
      splitOnChar c (joinSep [c] ls) = ls := by
  intro ls
  induction ls with
  | nil => intro h; exact absurd rfl h
  | cons s ss ih =>
    intro _ hmem
    cases ss with
    | nil =>
      show splitOnChar c (joinSep [c] [s]) = [s]
      simp only [joinSep]
      exact splitOnChar_eq_self c s (hmem s (List.mem_cons_self s []))
    | cons s2 ss2 =>
      have hjoin : joinSep [c] (s :: s2 :: ss2) = s ++ c :: joinSep [c] (s2 :: ss2) := by
        simp [joinSep]
      rw [hjoin, splitOnChar_append c s _ (hmem s (List.mem_cons_self s _))]
      rw [ih (by simp) (fun p hp => hmem p (List.mem_cons_of_mem s hp))]

theorem natLe_cons (a b : Nat) (as bs : List Nat) :
    natLe (a :: as) (b :: bs) = true ↔ a < b ∨ (a = b ∧ natLe as bs = true) := by
  simp only [natLe]
  rcases Nat.lt_trichotomy a b with h | h | h
  · simp [h]
  · subst h
    simp [Nat.lt_irrefl]
  · simp [Nat.lt_asymm h, h, Nat.ne_of_gt h]

theorem natLe_total : ∀ x y : List Nat, natLe x y = true ∨ natLe y x = true := by
  intro x
  induction x with
  | nil => intro y; left; rfl
  | cons a as ih =>
    intro y
    cases y with
    | nil => right; rfl
    | cons b bs =>
      rcases Nat.lt_trichotomy a b with h | h | h
      · left; rw [natLe_cons]; exact Or.inl h
      · subst h
        rcases ih bs with h2 | h2
        · left; rw [natLe_cons]; exact Or.inr ⟨rfl, h2⟩
        · right; rw [natLe_cons]; exact Or.inr ⟨rfl, h2⟩
      · right; rw [natLe_cons]; exact Or.inl h

theorem natLe_trans : ∀ x y z : List Nat,
    natLe x y = true → natLe y z = true → natLe x z = true := by
  intro x
  induction x with
  | nil => intro y z _ _; rfl
  | cons a as ih =>
    intro y z h1 h2
    cases y with
    | nil => simp [natLe] at h1
    | cons b bs =>
      cases z with
      | nil => simp [natLe] at h2
      | cons c cs =>
        rw [natLe_cons] at h1 h2 ⊢
        rcases h1 with h1 | ⟨h1e, h1r⟩
        · rcases h2 with h2 | ⟨h2e, _⟩
          · exact Or.inl (Nat.lt_trans h1 h2)
          · exact Or.inl (h2e ▸ h1)
        · rcases h2 with h2 | ⟨h2e, h2r⟩
          · exact Or.inl (h1e ▸ h2)
          · exact Or.inr ⟨h1e.trans h2e, ih bs cs h1r h2r⟩

instance : IsTotal Str lowRel := ⟨fun a b => natLe_total (lowKey a) (lowKey b)⟩

instance : IsTrans Str lowRel := ⟨fun _ _ _ h1 h2 => natLe_trans _ _ _ h1 h2⟩

theorem mem_pyDedup (x : Str) (l : List Str) : x ∈ pyDedup l ↔ x ∈ l := by
  induction l with
  | nil => simp [pyDedup]
  | cons y ys ih =>
    by_cases h : y ∈ ys
    · rw [pyDedup, if_pos h, ih]
      simp only [List.mem_cons]
      exact ⟨Or.inr, fun hx => hx.elim (fun he => he ▸ h) id⟩
    · rw [pyDedup, if_neg h]
      simp [List.mem_cons, ih]

theorem nodup_pyDedup (l : List Str) : (pyDedup l).Nodup := by
  induction l with
  | nil => simp [pyDedup]
  | cons y ys ih =>
    by_cases h : y ∈ ys
    · rw [pyDedup, if_pos h]; exact ih
    · rw [pyDedup, if_neg h]
      exact List.nodup_cons.mpr ⟨fun hm => h ((mem_pyDedup y ys).mp hm), ih⟩

theorem pyRemove_eq_filter (f : Str) (l : List Str) (h : l.Nodup) :
    pyRemove f l = l.filter (fun x => decide (x ≠ f)) := by
  induction l with
  | nil => rfl
  | cons y ys ih =>
    rcases List.nodup_cons.mp h with ⟨hy, hys⟩
    by_cases hyf : y = f
    · subst hyf
      rw [pyRemove, if_pos rfl]
      symm
      rw [List.filter_cons, if_neg (by simp)]
      rw [List.filter_eq_self]
      intro a ha
      simp only [decide_eq_true_eq]
      exact fun he => hy (he ▸ ha)
    · rw [pyRemove, if_neg hyf]
      simp [List.filter_cons, hyf, ih hys]

theorem foldl_pyRemove_eq_filter :
    ∀ (fs : List Str) (l : List Str), l.Nodup →
      fs.foldl (fun l f => pyRemove f l) l = l.filter (fun x => decide (x ∉ fs)) := by
  intro fs
  induction fs with
  | nil => intro l _; simp
  | cons f fs ih =>
    intro l h
    have hrm : pyRemove f l = l.filter (fun x => decide (x ≠ f)) := pyRemove_eq_filter f l h
    have hnd : (pyRemove f l).Nodup := by rw [hrm]; exact h.filter _
    simp only [List.foldl_cons]
    rw [ih (pyRemove f l) hnd, hrm, List.filter_filter]
    apply List.filter_congr
    intro x _
    by_cases h1 : x = f <;> by_cases h2 : x ∈ fs <;> simp [h1, h2]

theorem dictGet_insert_self {α : Type} (k : Str) (v : α) (d : List (Str × α)) :
    dictGet k (dictInsert k v d) = some v := by
  induction d with
  | nil => simp [dictInsert, dictGet]
  | cons kv rest ih =>
    obtain ⟨k2, v2⟩ := kv
    by_cases h : k = k2
    · simp [dictInsert, dictGet, h]
    · simp only [dictInsert, if_neg h, dictGet]
      exact ih

theorem dictGet_insert_ne {α : Type} (k k2 : Str) (hne : k ≠ k2) (v : α)
    (d : List (Str × α)) : dictGet k (dictInsert k2 v d) = dictGet k d := by
  induction d with
  | nil => simp [dictInsert, dictGet, hne]
  | cons kv rest ih =>
    obtain ⟨k3, v3⟩ := kv
    by_cases h : k2 = k3
    · subst h
      simp [dictInsert, dictGet, hne]
    · simp only [dictInsert, if_neg h, dictGet]
      by_cases h2 : k = k3
      · simp [h2]
      · rw [if_neg h2, if_neg h2]
        exact ih

theorem mem_dictInsert {α : Type} (p : Str × α) (k : Str) (v : α) (d : List (Str × α)) :
    p ∈ dictInsert k v d → p = (k, v) ∨ p ∈ d := by
  induction d with
  | nil => intro h; exact Or.inl (List.eq_of_mem_singleton h)
  | cons kv rest ih =>
    intro h
    obtain ⟨k2, v2⟩ := kv
    simp only [dictInsert] at h
    by_cases he : k = k2
    · rw [if_pos he] at h
      rcases List.mem_cons.mp h with h1 | h1
      · exact Or.inl h1
      · exact Or.inr (List.mem_cons_of_mem _ h1)
    · rw [if_neg he] at h
      rcases List.mem_cons.mp h with h1 | h1
      · exact Or.inr (h1 ▸ List.mem_cons_self _ _)
      · rcases ih h1 with h2 | h2
        · exact Or.inl h2
        · exact Or.inr (List.mem_cons_of_mem _ h2)

theorem dictInsert_keys {α : Type} (k : Str) (v : α) (d : List (Str × α)) :
    (dictInsert k v d).map Prod.fst =
      if k ∈ d.map Prod.fst then d.map Prod.fst else d.map Prod.fst ++ [k] := by
  induction d with
  | nil => simp [dictInsert]
  | cons kv rest ih =>
    obtain ⟨k2, v2⟩ := kv
    by_cases h : k = k2
    · have h1 : dictInsert k v ((k2, v2) :: rest) = (k, v) :: rest := by
        simp only [dictInsert, if_pos h]
      have h2 : k ∈ ((k2, v2) :: rest).map Prod.fst := by
        rw [List.map_cons, h]
        exact List.mem_cons_self _ _
      rw [h1, if_pos h2, List.map_cons, List.map_cons, h]
    · simp only [dictInsert, if_neg h, List.map_cons, ih]
      by_cases h2 : k ∈ rest.map Prod.fst
      · rw [if_pos h2, if_pos (List.mem_cons.mpr (Or.inr h2))]
      · rw [if_neg h2, if_neg (fun hc => (List.mem_cons.mp hc).elim h h2)]
        rw [List.cons_append]

theorem dictInsert_keys_nodup {α : Type} (k : Str) (v : α) (d : List (Str × α))
    (h : (d.map Prod.fst).Nodup) : ((dictInsert k v d).map Prod.fst).Nodup := by
  rw [dictInsert_keys]
  by_cases hk : k ∈ d.map Prod.fst
  · rw [if_pos hk]; exact h
  · rw [if_neg hk]
    simp [List.nodup_append, h, hk]

/-! ## Invariants of the parsed configuration -/

/-- Well-formedness of a parsed config: category names are distinct (Python
dict keys) and no value contains a comma (each came from a `split(',')`). -/
def ConfigWf (c : Config) : Prop :=
  (c.map Prod.fst).Nodup ∧ ∀ kv ∈ c, ∀ s ∈ kv.2, ',' ∉ s

theorem read_config_go_wf :
    ∀ (ls : List Str) (acc c : Config),
      ConfigWf acc → read_config_go ls acc = some c → ConfigWf c := by
  intro ls
  induction ls with
  | nil =>
    intro acc c hacc h
    simp only [read_config_go, Option.some.injEq] at h
    exact h ▸ hacc
  | cons line rest ih =>
    intro acc c hacc h
    simp only [read_config_go] at h
    split at h
    · refine ih _ c ⟨dictInsert_keys_nodup _ _ _ hacc.1, ?_⟩ h
      intro kv hkv s hs
      rcases mem_dictInsert kv _ _ _ hkv with heq | hmem
      · subst heq
        exact splitOnChar_not_mem ',' _ s hs
      · exact hacc.2 kv hmem s hs
    · exact absurd h (by simp)

theorem read_config_content_wf (content : Str) (c : Config)
    (h : read_config_content content = some c) : ConfigWf c :=
  read_config_go_wf _ [] c ⟨List.nodup_nil, by simp⟩ h

theorem read_config_go_none_iff :
    ∀ (ls : List Str) (acc : Config),
      read_config_go ls acc = none ↔ ∃ l ∈ ls, (splitOnChar ':' l).length ≠ 2 := by
  intro ls
  induction ls with
  | nil => intro acc; simp [read_config_go]
  | cons line rest ih =>
    intro acc
    simp only [read_config_go]
    by_cases h : (splitOnChar ':' line).length = 2
    · rw [if_pos h, ih]
      constructor
      · rintro ⟨l, hl, hbad⟩
        exact ⟨l, List.mem_cons_of_mem line hl, hbad⟩
      · rintro ⟨l, hl, hbad⟩
        rcases List.mem_cons.mp hl with h1 | h1
        · exact absurd (h1 ▸ h) hbad
        · exact ⟨l, h1, hbad⟩
    · rw [if_neg h]
      simp only [true_iff]
      exact ⟨line, List.mem_cons_self line rest, h⟩

/-! ## Invariants of parsed words -/

/-- The tag list of a word, empty when absent. -/
def fts_tokens (w : Word) : List Str := w.fts.getD []

/-- The keys of the `parts` dict, empty when absent. -/
def parts_keys (w : Word) : List Str := (w.parts.getD []).map Prod.fst

/-- Parse invariant: every key of the `parts` dict is one of the word's raw
tags (both come from the same `split(' ')` of the same tag field). -/
def WfWord (w : Word) : Prop := ∀ k, k ∈ parts_keys w → k ∈ fts_tokens w

theorem keys_foldl_tokens (f : Str → PartVal) :
    ∀ (ts : List Str) (d : List (Str × PartVal)) (x : Str),
      x ∈ ((ts.foldl (fun d t => dictInsert t (f t) d)) d).map Prod.fst →
        x ∈ ts ∨ x ∈ d.map Prod.fst := by
  intro ts
  induction ts with
  | nil => intro d x h; exact Or.inr h
  | cons t ts ih =>
    intro d x h
    simp only [List.foldl_cons] at h
    rcases ih _ x h with h1 | h1
    · exact Or.inl (List.mem_cons_of_mem t h1)
    · rw [dictInsert_keys] at h1
      split at h1
      · exact Or.inr h1
      · rcases List.mem_append.mp h1 with h2 | h2
        · exact Or.inr h2
        · exact Or.inl (List.mem_singleton.mp h2 ▸ List.mem_cons_self t ts)

theorem handle_parts_keys (s : Str) (config : ConfigType) (ps : List (Str × PartVal))
    (h : handle_parts s config = some ps) :
    ∀ x ∈ ps.map Prod.fst, x ∈ splitOnChar ' ' s := by
  intro x hx
  cases config with
  | none => simp [handle_parts] at h
  | some c =>
    simp only [handle_parts, Option.some.injEq] at h
    subst h
    rcases keys_foldl_tokens _ _ [] x hx with h1 | h1
    · exact h1
    · simp at h1

theorem parse_suffix_wf (verse : Str) (parts : List Str) (config : ConfigType) :
    WfWord (parse_suffix verse parts config) := by
  intro k hk
  unfold parse_suffix at hk ⊢
  simp only [parts_keys, fts_tokens] at hk ⊢
  cases h : handle_parts (parts.getD 2 []) config with
  | none => rw [h] at hk; simp at hk
  | some ps =>
    rw [h] at hk
    exact handle_parts_keys _ _ _ h k hk

theorem parse_word_wf (verse : Str) (parts : List Str) (config : ConfigType) :
    WfWord (parse_word verse parts config) := by
  intro k hk
  unfold parse_word at hk ⊢
  simp only [parts_keys, fts_tokens] at hk ⊢
  by_cases h6 : parts.length = 6
  · rw [if_pos h6] at hk ⊢
    cases h : handle_parts (parts.getD 4 []) config with
    | none => rw [h] at hk; simp at hk
    | some ps =>
      rw [h] at hk
      exact handle_parts_keys _ _ _ h k hk
  · rw [if_neg h6] at hk
    simp at hk

theorem parse_verse_body_mem (verse : Str) (config : ConfigType) :
    ∀ (ls : List Str) (acc : List Word) (w : Word),
      w ∈ (parse_verse_body verse config ls acc).1 → w ∈ acc ∨ WfWord w := by
  intro ls
  induction ls with
  | nil => intro acc w h; exact Or.inl h
  | cons l rest ih =>
    intro acc w h
    simp only [parse_verse_body] at h
    split at h
    · exact ih acc w h
    · split at h
      · exact Or.inl h
      · split at h
        · rcases ih _ w h with hmem | hwf
          · rcases List.mem_append.mp hmem with h1 | h1
            · exact Or.inl h1
            · exact Or.inr (List.mem_singleton.mp h1 ▸ parse_suffix_wf _ _ _)
          · exact Or.inr hwf
        · split at h
          · rcases ih _ w h with hmem | hwf
            · rcases List.mem_append.mp hmem with h1 | h1
              · exact Or.inl h1
              · exact Or.inr (List.mem_singleton.mp h1 ▸ parse_word_wf _ _ _)
            · exact Or.inr hwf
          · exact ih acc w h

theorem parse_verse_wf (lines : List Str) (config : ConfigType)
    (ws : List Word) (rest : List Str)
    (h : parse_verse lines config = Except.ok (ws, rest)) :
    ∀ w ∈ ws, WfWord w := by
  intro w hw
  simp only [parse_verse] at h
  split at h
  · exact absurd h (by simp)
  · simp only [Except.ok.injEq] at h
    have h1 : (parse_verse_body (pyStrip (lines.headD [])) config lines.tail []).1 = ws := by
      rw [h]
    rcases parse_verse_body_mem (pyStrip (lines.headD [])) config lines.tail [] w
      (by rw [h1]; exact hw) with h2 | h2
    · simp at h2
    · exact h2

theorem parse_file_go_wf (config : ConfigType) :
    ∀ (fuel : Nat) (lines : List Str) (ws : List Word),
      parse_file_go config fuel lines = Except.ok ws → ∀ w ∈ ws, WfWord w := by
  intro fuel
  induction fuel with
  | zero =>
    intro lines ws h w hw
    simp only [parse_file_go, Except.ok.injEq] at h
    subst h
    simp at hw
  | succ fuel ih =>
    intro lines ws h w hw
    simp only [parse_file_go] at h
    cases hpv : parse_verse lines config with
    | error e => rw [hpv] at h; exact absurd h (by simp)
    | ok p =>
      obtain ⟨ws1, rest⟩ := p
      rw [hpv] at h
      dsimp only at h
      by_cases hrest : rest = []
      · rw [if_pos hrest] at h
        simp only [Except.ok.injEq] at h
        subst h
        exact parse_verse_wf lines config ws1 rest hpv w hw
      · rw [if_neg hrest] at h
        cases hrec : parse_file_go config fuel rest with
        | error e => rw [hrec] at h; exact absurd h (by simp)
        | ok ws2 =>
          rw [hrec] at h
          simp only [Except.ok.injEq] at h
          subst h
          rcases List.mem_append.mp hw with h1 | h1
          · exact parse_verse_wf lines config ws1 rest hpv w h1
          · exact ih rest ws2 hrec w h1

theorem parse_file_wf (lines : List Str) (config : ConfigType) (ws : List Word)
    (h : parse_file lines config = Except.ok ws) : ∀ w ∈ ws, WfWord w :=
  parse_file_go_wf config _ lines ws h

theorem parse_all_go_wf (config : ConfigType) :
    ∀ (files : List Str) (acc : Except Str (List Word)),
      (∀ ws0, acc = Except.ok ws0 → ∀ w ∈ ws0, WfWord w) →
      ∀ ws, files.foldl
        (fun acc f =>
          match acc with
          | Except.error e => Except.error e
          | Except.ok ws =>
            match parse_file (pyReadlines f) config with
            | Except.error e => Except.error e
            | Except.ok ws2 => Except.ok (ws ++ ws2)) acc = Except.ok ws →
        ∀ w ∈ ws, WfWord w := by
  intro files
  induction files with
  | nil =>
    intro acc hacc ws h w hw
    exact hacc ws h w hw
  | cons f fs ih =>
    intro acc hacc ws h w hw
    simp only [List.foldl_cons] at h
    refine ih _ ?_ ws h w hw
    intro ws0 hacc0 w0 hw0
    cases acc with
    | error e => simp at hacc0
    | ok wsa =>
      cases hpf : parse_file (pyReadlines f) config with
      | error e => rw [hpf] at hacc0; simp at hacc0
      | ok ws2 =>
        rw [hpf] at hacc0
        simp only [Except.ok.injEq] at hacc0
        subst hacc0
        rcases List.mem_append.mp hw0 with h1 | h1
        · exact hacc wsa rfl w0 h1
        · exact parse_file_wf _ config ws2 hpf w0 h1

theorem parse_all_wf (files : List Str) (config : ConfigType) (ws : List Word)
    (h : parse_all files config = Except.ok ws) : ∀ w ∈ ws, WfWord w := by
  refine parse_all_go_wf config files (Except.ok []) ?_ ws h
  intro ws0 h0 w hw
  simp only [Except.ok.injEq] at h0
  subst h0
  simp at hw

/-! ## Lookup lemmas for `handle_parts` and `word_row` -/

/-- `config.get(part, part)` (src/main.py line 135). -/
def resolve_tag (c : Config) (tok : Str) : PartVal :=
  match dictGet tok c with
  | some vs => Sum.inl vs
  | none => Sum.inr tok

theorem dictGet_foldl_tokens (f : Str → PartVal) :
    ∀ (ts : List Str) (d : List (Str × PartVal)) (tok : Str),
      (tok ∈ ts ∨ dictGet tok d = some (f tok)) →
      dictGet tok (ts.foldl (fun d t => dictInsert t (f t) d) d) = some (f tok) := by
  intro ts
  induction ts with
  | nil =>
    intro d tok h
    rcases h with h | h
    · simp at h
    · exact h
  | cons t ts ih =>
    intro d tok h
    simp only [List.foldl_cons]
    by_cases he : tok = t
    · subst he
      rcases h with _ | _
      all_goals
        by_cases hts : tok ∈ ts
        · exact ih _ tok (Or.inl hts)
        · exact ih _ tok (Or.inr (dictGet_insert_self tok (f tok) d))
    · rcases h with h | h
      · rcases List.mem_cons.mp h with h1 | h1
        · exact absurd h1 he
        · exact ih _ tok (Or.inl h1)
      · refine ih _ tok (Or.inr ?_)
        rw [dictGet_insert_ne tok t he (f t) d]
        exact h

theorem dictGet_fold_row (w : Word) (title : Str) :
    ∀ (cfg : Config) (r : Row), title ∉ cfg.map Prod.fst →
      dictGet title
        (cfg.foldl (fun r kv => dictInsert kv.1 (some (category_cell w kv.2)) r) r) =
      dictGet title r := by
  intro cfg
  induction cfg with
  | nil => intro r _; rfl
  | cons kv rest ih =>
    intro r h
    obtain ⟨t0, v0⟩ := kv
    simp only [List.map_cons, List.mem_cons] at h
    push_neg at h
    simp only [List.foldl_cons]
    rw [ih _ h.2, dictGet_insert_ne title t0 h.1 _ r]

theorem dictGet_fold_row_mem (w : Word) :
    ∀ (cfg : Config) (r : Row) (title : Str) (terms : List Str),
      (cfg.map Prod.fst).Nodup → (title, terms) ∈ cfg →
      dictGet title
        (cfg.foldl (fun r kv => dictInsert kv.1 (some (category_cell w kv.2)) r) r) =
        some (some (category_cell w terms)) := by
  intro cfg
  induction cfg with
  | nil => intro r title terms _ hmem; simp at hmem
  | cons kv rest ih =>
    intro r title terms hnd hmem
    obtain ⟨t0, v0⟩ := kv
    simp only [List.map_cons, List.nodup_cons] at hnd
    simp only [List.foldl_cons]
    rcases List.mem_cons.mp hmem with h1 | h1
    · have ht : title = t0 := congrArg Prod.fst h1
      have hv : terms = v0 := congrArg Prod.snd h1
      subst ht
      subst hv
      rw [dictGet_fold_row w title rest _ hnd.1]
      exact dictGet_insert_self title _ r
    · exact ih _ title terms hnd.2 h1

theorem dictGet_word_row (w : Word) (cfg : Config) (title : Str) (terms : List Str)
    (hnd : (cfg.map Prod.fst).Nodup) (hmem : (title, terms) ∈ cfg) :
    dictGet title (word_row w cfg) = some (some (category_cell w terms)) := by
  unfold word_row
  exact dictGet_fold_row_mem w cfg (base_row w) title terms hnd hmem

/-- Reading a CSV cell back as a set of comma-separated tokens: the empty
cell carries no tokens. -/
def cell_tokens (s : Str) : List Str := if s = [] then [] else splitOnChar ',' s

theorem cell_tokens_sub (w : Word) (terms : List Str) (hw : WfWord w)
    (hterms : ∀ s ∈ terms, ',' ∉ s) :
    ∀ t ∈ cell_tokens (category_cell w terms), t ∈ fts_tokens w ∧ t ∈ terms := by
  intro t ht
  unfold category_cell at ht
  cases hp : w.parts with
  | none =>
    rw [hp] at ht
    simp [cell_tokens] at ht
  | some ps =>
    rw [hp] at ht
    dsimp only at ht
    by_cases hps : ps = []
    · rw [if_pos hps] at ht
      simp [cell_tokens] at ht
    · rw [if_neg hps] at ht
      by_cases hmet : (pyDedup terms).filter (fun t => decide (t ∈ ps.map Prod.fst)) = []
      · rw [hmet, if_pos rfl] at ht
        simp [cell_tokens] at ht
      · rw [if_neg hmet] at ht
        by_cases hjoin : joinSep [','] ((pyDedup terms).filter
            (fun t => decide (t ∈ ps.map Prod.fst))) = []
        · rw [cell_tokens, if_pos hjoin] at ht
          simp at ht
        · rw [cell_tokens, if_neg hjoin] at ht
          have hsub : ∀ p ∈ (pyDedup terms).filter (fun t => decide (t ∈ ps.map Prod.fst)),
              ',' ∉ p := by
            intro p hp2
            have := List.mem_filter.mp hp2
            exact hterms p ((mem_pyDedup p terms).mp this.1)
          rw [splitOnChar_joinSep ',' _ hmet hsub] at ht
          have hft := List.mem_filter.mp ht
          refine ⟨?_, (mem_pyDedup t terms).mp hft.1⟩
          have hk : t ∈ parts_keys w := by
            unfold parts_keys
            rw [hp]
            exact of_decide_eq_true hft.2
          exact hw t hk

theorem handle_parts_lookup (tagString : Str) (c : Config) (tok : Str)
    (h : tok ∈ splitOnChar ' ' tagString) :
    dictGet tok ((handle_parts tagString (some c)).getD []) = some (resolve_tag c tok) := by
  simp only [handle_parts, Option.getD]
  exact dictGet_foldl_tokens (fun part => match dictGet part c with
    | some vs => Sum.inl vs
    | none => Sum.inr part) (splitOnChar ' ' tagString) [] tok (Or.inl h)

/-! ## The `other:` line of the generated config -/

theorem nodup_met_parts0 (words : List Word) : (met_parts0 words).Nodup := by
  unfold met_parts0
  exact ((List.perm_insertionSort lowRel (observed_tags words)).nodup_iff).mpr
    (nodup_pyDedup _)

theorem write_config_other_eq_filter (words : List Word) :
    write_config_other words =
      (met_parts0 words).filter (fun x => decide (x ∉ default_features)) := by
  unfold write_config_other
  exact foldl_pyRemove_eq_filter default_features (met_parts0 words) (nodup_met_parts0 words)

theorem mem_write_config_other (words : List Word) (t : Str) :
    t ∈ write_config_other words ↔ t ∈ observed_tags words ∧ t ∉ default_features := by
  rw [write_config_other_eq_filter]
  rw [List.mem_filter]
  constructor
  · rintro ⟨h1, h2⟩
    exact ⟨(List.perm_insertionSort lowRel _).mem_iff.mp h1, of_decide_eq_true h2⟩
  · rintro ⟨h1, h2⟩
    exact ⟨(List.perm_insertionSort lowRel _).mem_iff.mpr h1, decide_eq_true h2⟩

theorem write_config_other_sorted (words : List Word) :
    (write_config_other words).Pairwise lowRel := by
  rw [write_config_other_eq_filter]
  exact List.Pairwise.sublist (List.filter_sublist _) (List.sorted_insertionSort lowRel _)

/-! ## Fuel adequacy for `parse_file` -/

theorem parse_verse_body_rest_le (verse : Str) (config : ConfigType) :
    ∀ (ls : List Str) (acc : List Word),
      (parse_verse_body verse config ls acc).2.length ≤ ls.length := by
  intro ls
  induction ls with
  | nil => intro acc; simp [parse_verse_body]
  | cons l rest ih =>
    intro acc
    simp only [parse_verse_body]
    split
    · exact le_trans (ih acc) (Nat.le_succ _)
    · split
      · simp
      · split
        · exact le_trans (ih _) (Nat.le_succ _)
        · split
          · exact le_trans (ih _) (Nat.le_succ _)
          · exact le_trans (ih acc) (Nat.le_succ _)

theorem parse_verse_rest_lt (lines : List Str) (config : ConfigType)
    (ws : List Word) (rest : List Str)
    (h : parse_verse lines config = Except.ok (ws, rest)) (hne : rest ≠ []) :
    rest.length < lines.length := by
  simp only [parse_verse] at h
  split at h
  · exact absurd h (by simp)
  · simp only [Except.ok.injEq] at h
    have hr : rest = (parse_verse_body (pyStrip (lines.headD [])) config lines.tail []).2 := by
      rw [h]
    have hle : rest.length ≤ lines.tail.length := by
      rw [hr]
      exact parse_verse_body_rest_le _ config lines.tail []
    cases lines with
    | nil =>
      simp only [List.tail_nil, List.length_nil, Nat.le_zero, List.length_eq_zero] at hle
      exact absurd hle hne
    | cons a as =>
      simp only [List.tail_cons] at hle
      simp only [List.length_cons]
      omega

theorem parse_file_go_succ (config : ConfigType) (fuel : Nat) (lines : List Str) :
    parse_file_go config (fuel + 1) lines =
      match parse_verse lines config with
      | Except.error e => Except.error e
      | Except.ok (ws, rest) =>
        if rest = [] then Except.ok ws
        else
          match parse_file_go config fuel rest with
          | Except.error e => Except.error e
          | Except.ok ws2 => Except.ok (ws ++ ws2) := rfl

theorem parse_file_go_stable (config : ConfigType) :
    ∀ (fuel : Nat) (lines : List Str), lines.length < fuel →
      parse_file_go config fuel lines = parse_file_go config (fuel + 1) lines := by
  intro fuel
  induction fuel with
  | zero => intro lines h; exact absurd h (Nat.not_lt_zero _)
  | succ fuel ih =>
    intro lines h
    rw [parse_file_go_succ, parse_file_go_succ]
    cases hpv : parse_verse lines config with
    | error e => rfl
    | ok p =>
      obtain ⟨ws, rest⟩ := p
      dsimp only
      by_cases hrest : rest = []
      · rw [if_pos hrest, if_pos hrest]
      · rw [if_neg hrest, if_neg hrest]
        have hlt : rest.length < fuel :=
          Nat.lt_of_lt_of_le (parse_verse_rest_lt lines config ws rest hpv hrest)
            (Nat.le_of_lt_succ h)
        rw [ih rest hlt]

/-! ## Claims -/

/-- C1, evaluation at the failing input: on the empty corpus (no `rip_*.txt`
files, zero parsed records) the config-generation run succeeds and the
generated config reads back, but the table run then crashes inside
`write_csv` with a `NameError` before writing anything, because the CSV
header is taken from the per-word loop variable, which is unbound when no
word was processed.  The claim says this round trip never crashes. -/
theorem c1_round_trip_empty_corpus_crashes :
    round_trip [] = Except.error (str "NameError: name w is not defined") := rfl

/-- C3: parsing a well-formed 6-field word line yields present tags equal to
the fifth field split on the space character and the translation from the
sixth field; a 5-field word line yields absent tags and the translation from
its last (fifth) field. -/
theorem c3_word_line_fields (verse : Str) (config : ConfigType)
    (p0 p1 p2 p3 p4 p5 : Str) :
    (parse_word verse [p0, p1, p2, p3, p4, p5] config).fts = some (splitOnChar ' ' p4) ∧
    (parse_word verse [p0, p1, p2, p3, p4, p5] config).translation = some p5 ∧
    (parse_word verse [p0, p1, p2, p3, p4] config).fts = none ∧
    (parse_word verse [p0, p1, p2, p3, p4] config).translation = some p4 :=
  ⟨rfl, rfl, rfl, rfl⟩

/-- C8, counterexample to the claim as stated: the config line
`"pos: noun,verb, particle"` does not yield the value set
`{"noun", "verb", " particle"}` — the first value keeps the space that
follows the colon, so `"noun"` is not among the values. -/
theorem c8_counterexample :
    read_config_content (str "pos: noun,verb, particle") =
      some [(str "pos", [str " noun", str "verb", str " particle"])] ∧
    str "noun" ∉ [str " noun", str "verb", str " particle"] := by decide

/-- C8, amended: the config line `"pos: noun,verb, particle"` yields category
`"pos"` mapped to exactly the value set `{" noun", "verb", " particle"}`:
values are split on commas with no trimming at all, so the space after the
colon stays on the first value and interior spaces stay as well. -/
theorem c8_config_line_values :
    read_config_content (str "pos: noun,verb, particle") =
      some [(str "pos", [str " noun", str "verb", str " particle"])] := rfl

/-- C10: a 6-field word line whose fifth (tag) field is the empty string
parses to a Word whose tags are present and equal `[""]` (one empty-string
element), not absent and not the empty list; the table writer therefore
renders its `fts` cell as `"[]"`, not as an empty string. -/
theorem c10_empty_tag_field (verse : Str) (config : ConfigType)
    (p0 p1 p2 p3 p5 : Str) :
    (parse_word verse [p0, p1, p2, p3, [], p5] config).fts = some [([] : Str)] ∧
    (parse_word verse [p0, p1, p2, p3, [], p5] config).fts ≠ none ∧
    (parse_word verse [p0, p1, p2, p3, [], p5] config).fts ≠ some [] ∧
    fts_cell (parse_word verse [p0, p1, p2, p3, [], p5] config) = some (str "[]") ∧
    fts_cell (parse_word verse [p0, p1, p2, p3, [], p5] config) ≠ some [] :=
  ⟨rfl, by simp [parse_word], by simp [parse_word, splitOnChar], rfl, by simp [parse_word, fts_cell, splitOnChar, joinSep, str]⟩

/-- C5, counterexample to the claim as stated: with the config
`{"x": {"v"}}` available, the suffix line `f⟨tab⟩t⟨tab⟩x` parses to a Word
whose `resolvedParts` maps the tag `"x"` to the config's value set
`{"v"}` — `config.get(part, part)` is not the identity when a tag collides
with a category name. -/
theorem c5_counterexample :
    (parse_suffix (str "V") [str "f", str "t", str "x"]
        (some [(str "x", [str "v"])])).parts =
      some [(str "x", Sum.inl [str "v"])] ∧
    (Sum.inl [str "v"] : PartVal) ≠ Sum.inr (str "x") := by decide

/-- C5, amended: with a config available, `resolvedParts` maps each
whitespace-delimited tag token to `config.get(token, token)`: the category's
value set when the token equals a category name, and the token itself
otherwise. -/
theorem c5_resolved_parts (tagString : Str) (c : Config) (tok : Str)
    (h : tok ∈ splitOnChar ' ' tagString) :
    dictGet tok ((handle_parts tagString (some c)).getD []) =
      some (resolve_tag c tok) :=
  handle_parts_lookup tagString c tok h

/-- Witness for `c5_resolved_parts` at the tag string `"b x"` and a config
with the single category `"pos"`. -/
theorem c5_resolved_parts_witness :
    (str "b" ∈ splitOnChar ' ' (str "b x")) ∧
    dictGet (str "b")
        ((handle_parts (str "b x") (some [(str "pos", [str " a"])])).getD []) =
      some (resolve_tag [(str "pos", [str " a"])] (str "b")) :=
  ⟨by decide, c5_resolved_parts (str "b x") [(str "pos", [str " a"])] (str "b") (by decide)⟩

/-- C4, counterexample to the claim as stated: in the config content
`"x: a\na:b:c"` every line contains a colon, so every line splits into two
parts on its first colon and the claim predicts no format error; but the
code splits on every colon, the line `"a:b:c"` yields three parts, and the
whole read fails to "no config". -/
theorem c4_counterexample :
    read_config_content (str "x: a\na:b:c") = none ∧
    ∀ l ∈ pyReadlines (str "x: a\na:b:c"), ':' ∈ l := by decide

/-- C4, amended: reading the config fails (yielding "no config", never a
partial config) exactly when some line does not split into exactly two
parts when split on every colon, i.e. when its colon count differs from
one. -/
theorem c4_read_failure_iff (content : Str) :
    read_config_content content = none ↔
      ∃ l ∈ pyReadlines content, (splitOnChar ':' l).length ≠ 2 :=
  read_config_go_none_iff (pyReadlines content) []

/-- C7, counterexample to the claim as stated: the verse-identifier line
`"\tGen.1.1\n"` contains a tab, but `parse_verse` strips the line before
the assertion, so the run does not abort and the line is processed as data:
the file parses to one suffix Word with verse id `"Gen.1.1"`. -/
theorem c7_counterexample :
    ('\t' ∈ str "\tGen.1.1\n") ∧
    parse_file (pyReadlines (str "\tGen.1.1\nab\tcd\tT\n")) none =
      Except.ok [⟨str "Gen.1.1", str "ab", str "cd",
        some [str "T"], none, none, none, none⟩] :=
  ⟨by decide, rfl⟩

/-- C7, amended: a verse-identifier line that still contains a tab after
stripping surrounding whitespace (an interior tab) makes `parse_verse` fail
its assertion, and `parse_file` propagates the abort; only tabs in the
stripped-off margin survive without aborting. -/
theorem c7_interior_tab_aborts (lines : List Str) (config : ConfigType)
    (h : '\t' ∈ pyStrip (lines.headD [])) :
    parse_verse lines config = Except.error assertMsg ∧
    parse_file lines config = Except.error assertMsg := by
  have h1 : parse_verse lines config = Except.error assertMsg := by
    simp only [parse_verse, if_pos h]
  refine ⟨h1, ?_⟩
  unfold parse_file
  rw [parse_file_go_succ, h1]

/-- Witness for `c7_interior_tab_aborts` on a one-line file whose
identifier line has an interior tab. -/
theorem c7_interior_tab_aborts_witness :
    ('\t' ∈ pyStrip (([str "G\te\n"] : List Str).headD [])) ∧
    parse_verse [str "G\te\n"] none = Except.error assertMsg ∧
    parse_file [str "G\te\n"] none = Except.error assertMsg :=
  ⟨by decide, (c7_interior_tab_aborts [str "G\te\n"] none (by decide)).1,
    (c7_interior_tab_aborts [str "G\te\n"] none (by decide)).2⟩

/-- C2: a verse-body line that strips to a well-formed 3-tab-field suffix
line (no annotation glyphs) parses, via `parse_verse`, to exactly the Word
built by `parse_suffix`, whose lemma, transliterated lemma and translation
are absent and whose tags are the third field split on the space
character. -/
theorem c2_suffix_line (v l f0 f1 f2 : Str) (config : ConfigType)
    (hv : '\t' ∉ pyStrip v)
    (hskip : hasSkipMark (pyStrip l) = false)
    (hsplit : splitOnChar '\t' (pyStrip l) = [f0, f1, f2]) :
    parse_verse [v, l] config =
      Except.ok ([parse_suffix (pyStrip v) [f0, f1, f2] config], []) ∧
    (parse_suffix (pyStrip v) [f0, f1, f2] config).lemma_ = none ∧
    (parse_suffix (pyStrip v) [f0, f1, f2] config).transliterated_lemma = none ∧
    (parse_suffix (pyStrip v) [f0, f1, f2] config).translation = none ∧
    (parse_suffix (pyStrip v) [f0, f1, f2] config).fts = some (splitOnChar ' ' f2) := by
  have hne : pyStrip l ≠ [] := by
    intro heq
    rw [heq] at hsplit
    simp [splitOnChar] at hsplit
  have hbody : parse_verse_body (pyStrip v) config [l] [] =
      ([parse_suffix (pyStrip v) [f0, f1, f2] config], []) := by
    simp only [parse_verse_body, hskip, hsplit, hne, Bool.false_eq_true, if_false]
    simp [parse_verse_body]
  refine ⟨?_, rfl, rfl, rfl, rfl⟩
  simp only [parse_verse, List.headD, List.tail_cons, if_neg hv, hbody]

/-- Witness for `c2_suffix_line` on the verse `"Gen.1.1"` and the suffix
line `"a⟨tab⟩b⟨tab⟩Noun Verb"`. -/
theorem c2_suffix_line_witness :
    ('\t' ∉ pyStrip (str "Gen.1.1")) ∧
    hasSkipMark (pyStrip (str "a\tb\tNoun Verb")) = false ∧
    splitOnChar '\t' (pyStrip (str "a\tb\tNoun Verb")) =
      [str "a", str "b", str "Noun Verb"] ∧
    (parse_suffix (pyStrip (str "Gen.1.1")) [str "a", str "b", str "Noun Verb"]
        none).fts = some (splitOnChar ' ' (str "Noun Verb")) :=
  ⟨by decide, by decide, by decide,
    (c2_suffix_line (str "Gen.1.1") (str "a\tb\tNoun Verb") (str "a") (str "b")
      (str "Noun Verb") none (by decide) (by decide) (by decide)).2.2.2.2⟩

/-- C6: for any Word of the parsed corpus and any category of a config read
from `config.txt`, the CSV row stores a present (never null) cell for that
category, and that cell, read back as comma-separated tokens, is a subset
of the Word's raw tags and of the category's declared value set. -/
theorem c6_category_columns (content : Str) (files : List Str) (config : Config)
    (ws : List Word) (w : Word) (title : Str) (terms : List Str)
    (hconf : read_config_content content = some config)
    (hparse : parse_all files (some config) = Except.ok ws)
    (hw : w ∈ ws) (hmem : (title, terms) ∈ config) :
    dictGet title (word_row w config) = some (some (category_cell w terms)) ∧
    ∀ t ∈ cell_tokens (category_cell w terms), t ∈ fts_tokens w ∧ t ∈ terms := by
  have hcw : ConfigWf config := read_config_content_wf content config hconf
  have hwf : WfWord w := parse_all_wf files (some config) ws hparse w hw
  exact ⟨dictGet_word_row w config title terms hcw.1 hmem,
    cell_tokens_sub w terms hwf (fun s hs => hcw.2 (title, terms) hmem s hs)⟩

/-- Witness for `c6_category_columns`: config `"pos: a,b"` and a one-file
corpus with a single suffix line tagged `"b x"`. -/
theorem c6_category_columns_witness :
    read_config_content (str "pos: a,b") = some [(str "pos", [str " a", str "b"])] ∧
    parse_all [str "Gen.1.1\nf\tt\tb x\n"] (some [(str "pos", [str " a", str "b"])]) =
      Except.ok [⟨str "Gen.1.1", str "f", str "t", some [str "b", str "x"],
        some [(str "b", Sum.inr (str "b")), (str "x", Sum.inr (str "x"))],
        none, none, none⟩] ∧
    ((⟨str "Gen.1.1", str "f", str "t", some [str "b", str "x"],
        some [(str "b", Sum.inr (str "b")), (str "x", Sum.inr (str "x"))],
        none, none, none⟩ : Word) ∈
      [(⟨str "Gen.1.1", str "f", str "t", some [str "b", str "x"],
        some [(str "b", Sum.inr (str "b")), (str "x", Sum.inr (str "x"))],
        none, none, none⟩ : Word)]) ∧
    ((str "pos", [str " a", str "b"]) ∈ [(str "pos", [str " a", str "b"])]) ∧
    (dictGet (str "pos") (word_row ⟨str "Gen.1.1", str "f", str "t",
        some [str "b", str "x"],
        some [(str "b", Sum.inr (str "b")), (str "x", Sum.inr (str "x"))],
        none, none, none⟩ [(str "pos", [str " a", str "b"])]) =
      some (some (category_cell ⟨str "Gen.1.1", str "f", str "t",
        some [str "b", str "x"],
        some [(str "b", Sum.inr (str "b")), (str "x", Sum.inr (str "x"))],
        none, none, none⟩ [str " a", str "b"])) ∧
    ∀ t ∈ cell_tokens (category_cell ⟨str "Gen.1.1", str "f", str "t",
        some [str "b", str "x"],
        some [(str "b", Sum.inr (str "b")), (str "x", Sum.inr (str "x"))],
        none, none, none⟩ [str " a", str "b"]),
      t ∈ fts_tokens ⟨str "Gen.1.1", str "f", str "t",
        some [str "b", str "x"],
        some [(str "b", Sum.inr (str "b")), (str "x", Sum.inr (str "x"))],
        none, none, none⟩ ∧ t ∈ [str " a", str "b"]) :=
  ⟨by decide, rfl, by decide, by decide,
    c6_category_columns (str "pos: a,b") [str "Gen.1.1\nf\tt\tb x\n"]
      [(str "pos", [str " a", str "b"])] _ _ (str "pos") [str " a", str "b"]
      (by decide) rfl (by decide) (by decide)⟩

/-- C9: the values on the generated config's trailing `"other:"` line are
exactly the corpus-observed tag values claimed by no built-in category
vocabulary (e.g. an observed `"Hiphil"`), they are sorted case-insensitively,
and the line is omitted exactly when no unclaimed value exists. -/
theorem c9_other_line (words : List Word) :
    (∀ t, t ∈ write_config_other words ↔
      (t ∈ observed_tags words ∧ t ∉ default_features)) ∧
    (write_config_other words).Pairwise lowRel ∧
    (write_config_content words = default_config_lines ↔
      write_config_other words = []) := by
  refine ⟨fun t => mem_write_config_other words t, write_config_other_sorted words, ?_, ?_⟩
  · intro hc
    by_contra hne
    unfold write_config_content at hc
    rw [if_neg hne] at hc
    have h0 : default_config_lines ++
        (str "other: " ++ joinSep (str ", ") (write_config_other words)) =
        default_config_lines ++ [] := by
      rw [hc, List.append_nil]
    have h1 := List.append_cancel_left h0
    rcases List.append_eq_nil.mp h1 with ⟨h2, _⟩
    exact absurd h2 (by decide)
  · intro h
    unfold write_config_content
    rw [if_pos h, List.append_nil]
